import Mathlib

/-!
Shallow embedding of the Condorcet tabulation engine of `voting/utils.py`:
pairwise counting (`calculate_pairwise_results`), Condorcet winner detection
(`find_condorcet_winner`), the Schulze widest-path tiebreaker
(`schulze_method`), the Borda tiebreaker (`borda_count_tiebreaker`), ranking
validation (`validate_ranking`) and the top-level orchestration
(`calculate_condorcet_winner`), together with proofs of the specified
properties.

Modelling conventions:
* a Python dictionary with integer values read through `.get(key, 0)` is a
  total function into `Nat`;
* the Python `set` of candidates is a `List` recording one iteration order
  (Python set iteration order is unspecified);
* `random.choice` is an explicit oracle `pick : List α → α`;
* raising `ValueError` is returning `Except.error` with the message.
-/

variable {α : Type} [DecidableEq α]

/-- The ordered pairs `(vote[i], vote[j])` with `i < j` generated by one
ballot: one list entry per increment the source performs on the pairwise
dictionary for this ballot (`for i, candidate_a in enumerate(vote): for
candidate_b in vote[i+1:]`). -/
def votePairs : List α → List (α × α)
  | [] => []
  | a :: rest => rest.map (fun b => (a, b)) ++ votePairs rest

/-- `calculate_pairwise_results`: the final dictionary entry at `(a, b)` is
the total number of increments performed for that key, i.e. the number of
position pairs `i < j` with `vote[i] = a` and `vote[j] = b`, summed over all
ballots.  Keys never incremented read as `0` (the `defaultdict(int)` /
`.get(pair, 0)` convention). -/
def calculate_pairwise_results (votes_list : List (List α)) (a b : α) : Nat :=
  (votes_list.map (fun vote => (votePairs vote).count (a, b))).sum

/-- `a` occupies an earlier position than `b` on the ballot (looking from the
first occurrence of `a`). -/
def ranked_above (a b : α) (vote : List α) : Bool :=
  match vote with
  | [] => false
  | x :: xs => if x = a then decide (b ∈ xs) else ranked_above a b xs

/-- The per-candidate loop body of `find_condorcet_winner`: candidate `c`
survives iff for every opponent it either is the opponent (the `continue`
branch) or strictly beats it (`votes_for <= votes_against` disqualifies). -/
def condorcetCondition (p : α → α → Nat) (candidates_list : List α) (c : α) : Bool :=
  candidates_list.all fun opponent =>
    decide (c = opponent) || decide (p opponent c < p c opponent)

/-- `find_condorcet_winner`: return the first candidate (in iteration order)
that beats every other candidate head-to-head, else `None`. -/
def find_condorcet_winner (p : α → α → Nat) (candidates_list : List α) : Option α :=
  candidates_list.find? (condorcetCondition p candidates_list)

/-- Initial Schulze matrix: `d[(i,j)] = pairwise_results.get((i,j), 0)` for
`i ≠ j` and `d[(i,i)] = 0`. -/
def schulzeInit (p : α → α → Nat) (i j : α) : Nat :=
  if i = j then 0 else p i j

/-- One in-place dictionary write of the Floyd–Warshall loop:
`d[(i,j)] = max(d[(i,j)], min(d[(i,k)], d[(k,j)]))`, performed only when
`i != j`. -/
def fwUpdate (d : α → α → Nat) (k i j : α) : α → α → Nat :=
  fun a b =>
    if a = i ∧ b = j ∧ i ≠ j then max (d i j) (min (d i k) (d k j)) else d a b

/-- The innermost `for j in candidates_list` loop for fixed `k`, `i`. -/
def fwInner (k i : α) (js : List α) (d : α → α → Nat) : α → α → Nat :=
  js.foldl (fun m j => fwUpdate m k i j) d

/-- The `for i in candidates_list` loop for fixed `k`. -/
def fwRound (k : α) (is js : List α) (d : α → α → Nat) : α → α → Nat :=
  is.foldl (fun m i => fwInner k i js m) d

/-- The outer `for k in candidates_list` Floyd–Warshall loop. -/
def fwPass (ks js : List α) (d : α → α → Nat) : α → α → Nat :=
  ks.foldl (fun m k => fwRound k js js m) d

/-- The strongest-path matrix `d` as computed by `schulze_method` before the
winner scan. -/
def schulzeClosure (p : α → α → Nat) (candidates_list : List α) : α → α → Nat :=
  fwPass candidates_list candidates_list (schulzeInit p)

/-- The winner scan of `schulze_method`: `i` is kept iff no other candidate
`j` has `d[(j,i)] > d[(i,j)]`. -/
def schulzeWinnerPred (p : α → α → Nat) (candidates_list : List α) (i : α) : Bool :=
  candidates_list.all fun j =>
    decide (i = j) ||
      !decide (schulzeClosure p candidates_list i j < schulzeClosure p candidates_list j i)

/-- The `schulze_winners` list accumulated by `schulze_method`. -/
def schulze_winners (p : α → α → Nat) (candidates_list : List α) : List α :=
  candidates_list.filter (schulzeWinnerPred p candidates_list)

/-- `schulze_method`: the single winner if unique, `random.choice` among the
winners if several, and the logged random fallback over all candidates if the
winner set is empty. -/
def schulze_method (pick : List α → α) (p : α → α → Nat) (candidates_list : List α) : α :=
  match schulze_winners p candidates_list with
  | [] => pick candidates_list
  | [w] => w
  | w1 :: w2 :: ws => pick (w1 :: w2 :: ws)

/-- Candidates in order of first appearance while scanning the ballots: the
key insertion order of the Python `scores` dictionary. -/
def insertionOrder (l : List α) : List α :=
  l.foldl (fun acc x => if x ∈ acc then acc else acc ++ [x]) []

/-- Python `max(items, key=score)`: scan left to right, replace the current
best only on a strictly greater score, `none` on the empty sequence (where
Python raises `ValueError`). -/
def maxByFirst (score : α → Nat) (l : List α) : Option α :=
  l.foldl
    (fun best x =>
      match best with
      | none => some x
      | some m => if score x > score m then some x else some m)
    none

/-- Score contributed to candidate `c` by the suffix of a ballot starting at
0-indexed position `pos`: each position `p` holding `c` contributes
`n_candidates - p` points. -/
def positionalScore (n : Nat) (pos : Nat) (vote : List α) (c : α) : Nat :=
  match vote with
  | [] => 0
  | x :: xs => (if x = c then n - pos else 0) + positionalScore n (pos + 1) xs c

/-- `n_candidates = len(votes_list[0]) if votes_list else 0`. -/
def borda_n (votes_list : List (List α)) : Nat :=
  (votes_list.headD []).length

/-- The Borda `scores` dictionary of `borda_count_tiebreaker` read as a total
function (missing keys read as `0`). -/
def borda_scores (votes_list : List (List α)) (c : α) : Nat :=
  (votes_list.map (fun vote => positionalScore (borda_n votes_list) 0 vote c)).sum

/-- `borda_count_tiebreaker`: the first-encountered candidate of maximal
Borda score, `none` when there are no scores at all. -/
def borda_count_tiebreaker (votes_list : List (List α)) : Option α :=
  maxByFirst (borda_scores votes_list) (insertionOrder votes_list.flatten)

/-- `validate_ranking`: the three rejection tests of the source, in order. -/
def validate_ranking (ranking : List α) (expected_candidates : Finset α) : Bool :=
  if ranking.length ≠ expected_candidates.card then false
  else if ranking.toFinset ≠ expected_candidates then false
  else if ranking.length ≠ ranking.toFinset.card then false
  else true

/-- `random_tiebreaker`: `random.choice(list(candidates))`. -/
def random_tiebreaker (pick : List α → α) (candidates : List α) : α :=
  pick candidates

/-- The candidate universe built in the no-filter branch:
`all_candidates.update(vote)` over all ballots (a set, listed here in a fixed
order). -/
def unionCandidates (votes_list : List (List α)) : List α :=
  votes_list.flatten.dedup

/-- The filtering step of `calculate_condorcet_winner` when a (truthy)
expected-candidate set is given: keep only expected identifiers, preserving
order, and drop ballots that become empty. -/
def cleanVotes (votes_list : List (List α)) (expected_candidates : List α) : List (List α) :=
  (votes_list.map (fun vote => vote.filter (fun c => decide (c ∈ expected_candidates)))).filter
    (fun v => !v.isEmpty)

/-- The no-filter branch of `calculate_condorcet_winner`: all ballots must
have the same length, and the universe is the union of their entries. -/
def noFilterBranch (votes_list : List (List α)) : Except String (List (List α) × List α) :=
  if ((votes_list.map List.length).dedup).length > 1 then
    Except.error "All votes must have same number of candidates."
  else
    Except.ok (votes_list, unionCandidates votes_list)

/-- Ballot normalization of `calculate_condorcet_winner`: Python's
`if expected_candidates:` is falsy both for `None` and for an empty set, so
both fall into the no-filter branch. -/
def resolveBallots (votes_list : List (List α)) (expected_candidates : Option (List α)) :
    Except String (List (List α) × List α) :=
  match expected_candidates with
  | some s =>
    if s.isEmpty then noFilterBranch votes_list
    else
      if (cleanVotes votes_list s).isEmpty then
        Except.error "No valid votes remaining after filtering candidates."
      else
        Except.ok (cleanVotes votes_list s, s)
  | none => noFilterBranch votes_list

/-- The candidate universe `calculate_condorcet_winner` resolves (ignoring
the failures that may occur before it is used). -/
def resolvedUniverse (votes_list : List (List α)) (expected_candidates : Option (List α)) :
    List α :=
  match expected_candidates with
  | some s => if s.isEmpty then unionCandidates votes_list else s
  | none => unionCandidates votes_list

/-- `calculate_condorcet_winner`: validation, the one-candidate shortcut,
Condorcet detection, then the configured tiebreaker. -/
def calculate_condorcet_winner (pick : List α → α) (votes_list : List (List α))
    (tiebreaker_method : String) (expected_candidates : Option (List α)) :
    Except String (α × String) :=
  if votes_list.isEmpty then
    Except.error "Cannot calculate winner from empty votes list."
  else
    match resolveBallots votes_list expected_candidates with
    | Except.error e => Except.error e
    | Except.ok (votes, all_candidates) =>
      match votes with
      | [] => Except.error "Cannot calculate winner from empty votes list."
      | v0 :: _ =>
        if v0.isEmpty then Except.error "Votes cannot be empty."
        else
          match all_candidates with
          | [] => Except.error "Need at least 2 candidates."
          | [c] => Except.ok (c, "condorcet")
          | c1 :: c2 :: cs =>
            match find_condorcet_winner (calculate_pairwise_results votes) (c1 :: c2 :: cs) with
            | some w => Except.ok (w, "condorcet")
            | none =>
              if tiebreaker_method = "borda" then
                match borda_count_tiebreaker votes with
                | some w => Except.ok (w, "borda")
                | none => Except.error "max arg is an empty sequence"
              else if tiebreaker_method = "random" then
                Except.ok (random_tiebreaker pick (c1 :: c2 :: cs), "random")
              else
                Except.ok
                  (schulze_method pick (calculate_pairwise_results votes) (c1 :: c2 :: cs),
                    "schulze")

/-- A tabulation call failed (raised `ValueError`). -/
def isErr {β : Type} (r : Except String β) : Bool :=
  match r with
  | Except.error _ => true
  | Except.ok _ => false

/-- All diagonal entries of a Schulze matrix are zero. -/
def DiagZero (d : α → α → Nat) : Prop :=
  ∀ a, d a a = 0

/-- The matrix is relaxed with respect to intermediate `k` on the candidate
list: no off-diagonal entry can be improved through `k`. -/
def FWClosed (candidates_list : List α) (d : α → α → Nat) (k : α) : Prop :=
  ∀ i ∈ candidates_list, ∀ j ∈ candidates_list, i ≠ j → min (d i k) (d k j) ≤ d i j

/-- Concrete pairwise matrix used to instantiate theorems with hypotheses. -/
def pEx : Nat → Nat → Nat :=
  fun i j => if i = 0 ∧ j = 1 then 2 else if i = 1 ∧ j = 0 then 1 else 0

/-- Concrete all-zero pairwise matrix. -/
def pZero : Nat → Nat → Nat :=
  fun _ _ => 0

/-- Concrete `random.choice` oracle: always the first element. -/
def pickEx : List Nat → Nat :=
  fun l => l.headD 0

/-! ### Generic fold invariant -/

theorem foldlInvariant {β γ : Type} (f : γ → β → γ) (P : γ → Prop) (l : List β) :
    ∀ init : γ, P init → (∀ acc x, x ∈ l → P acc → P (f acc x)) → P (l.foldl f init) := by
  induction l with
  | nil => intro init h _; exact h
  | cons x xs ih =>
    intro init h hstep
    simp only [List.foldl_cons]
    exact ih (f init x) (hstep init x (by simp) h)
      (fun acc y hy hacc => hstep acc y (by simp [hy]) hacc)

/-! ### Pairwise counting -/

theorem votePairs_fst_mem {v : List α} {a b : α} (h : (a, b) ∈ votePairs v) : a ∈ v := by
  induction v with
  | nil => simp [votePairs] at h
  | cons x xs ih =>
    simp only [votePairs, List.mem_append, List.mem_map, Prod.mk.injEq] at h
    rcases h with ⟨y, _, rfl, rfl⟩ | h
    · exact List.mem_cons_self _ _
    · exact List.mem_cons_of_mem x (ih h)

theorem votePairs_snd_mem {v : List α} {a b : α} (h : (a, b) ∈ votePairs v) : b ∈ v := by
  induction v with
  | nil => simp [votePairs] at h
  | cons x xs ih =>
    simp only [votePairs, List.mem_append, List.mem_map, Prod.mk.injEq] at h
    rcases h with ⟨y, hy, rfl, rfl⟩ | h
    · exact List.mem_cons_of_mem x hy
    · exact List.mem_cons_of_mem x (ih h)

theorem votePairs_count_eq_zero_left {v : List α} {a : α} (h : a ∉ v) (b : α) :
    (votePairs v).count (a, b) = 0 := by
  rw [List.count_eq_zero]
  intro hmem
  exact h (votePairs_fst_mem hmem)

theorem votePairs_count_eq_zero_right {v : List α} {b : α} (h : b ∉ v) (a : α) :
    (votePairs v).count (a, b) = 0 := by
  rw [List.count_eq_zero]
  intro hmem
  exact h (votePairs_snd_mem hmem)

theorem count_map_pair (x b : α) (xs : List α) :
    (xs.map (fun y => (x, y))).count (x, b) = xs.count b := by
  induction xs with
  | nil => rfl
  | cons z zs ih =>
    by_cases hz : z = b
    · subst hz
      simp [List.count_cons, ih]
    · simp [List.count_cons, ih, hz, Prod.ext_iff]

theorem votePairs_count_nodup {v : List α} (hnd : v.Nodup) (a b : α) :
    (votePairs v).count (a, b) = if ranked_above a b v then 1 else 0 := by
  induction v with
  | nil => simp [votePairs, ranked_above]
  | cons x xs ih =>
    rcases List.nodup_cons.mp hnd with ⟨hx, hxs⟩
    simp only [votePairs, List.count_append]
    by_cases hxa : x = a
    · subst hxa
      rw [count_map_pair x b xs, votePairs_count_eq_zero_left hx]
      by_cases hb : b ∈ xs
      · rw [List.count_eq_one_of_mem hxs hb]
        simp [ranked_above, hb]
      · rw [List.count_eq_zero.mpr hb]
        simp [ranked_above, hb]
    · have hmap : (xs.map (fun y => (x, y))).count (a, b) = 0 := by
        rw [List.count_eq_zero]
        intro hmem
        rcases List.mem_map.mp hmem with ⟨y, _, hy⟩
        exact hxa (congrArg Prod.fst hy)
      rw [hmap, ih hxs]
      simp [ranked_above, hxa]

/-- C2: for ballots without duplicate identifiers, the pairwise map entry at
`(a, b)` (one increment per ordered position pair `i < j` in each ballot,
absent keys reading as zero) equals the number of ballots ranking `a` at an
earlier position than `b`. -/
theorem pairwise_counts_ballots (votes : List (List α)) (a b : α) :
    (∀ v ∈ votes, v.Nodup) →
      calculate_pairwise_results votes a b = votes.countP (ranked_above a b) := by
  induction votes with
  | nil => intro _; simp [calculate_pairwise_results]
  | cons v vs ih =>
    intro hnd
    have hv := hnd v (by simp)
    have hrest : ∀ w ∈ vs, w.Nodup := fun w hw => hnd w (by simp [hw])
    have hih := ih hrest
    simp only [calculate_pairwise_results, List.map_cons, List.sum_cons,
      List.countP_cons] at *
    rw [votePairs_count_nodup hv a b, hih]
    by_cases h : ranked_above a b v <;> simp [h] <;> omega

theorem pairwise_counts_ballots_witness :
    calculate_pairwise_results [[0, 1], [1, 0], [0, 1]] 0 1 =
      List.countP (ranked_above 0 1) [[0, 1], [1, 0], [0, 1]] :=
  pairwise_counts_ballots [[0, 1], [1, 0], [0, 1]] 0 1 (by decide)

/-! ### Ranking validation -/

/-- C9: `validate_ranking` accepts exactly the permutations of the expected
set: same length as the set, same underlying set, no duplicates. -/
theorem validate_ranking_iff (ranking : List α) (expected : Finset α) :
    validate_ranking ranking expected = true ↔
      ranking.length = expected.card ∧ ranking.toFinset = expected ∧ ranking.Nodup := by
  unfold validate_ranking
  split_ifs with h1 h2 h3
  · simp only [Bool.false_eq_true, false_iff, not_and]
    intro hl
    exact absurd hl h1
  · simp only [Bool.false_eq_true, false_iff, not_and]
    intro _ hs
    exact absurd hs h2
  · simp only [Bool.false_eq_true, false_iff, not_and]
    intro _ _
    intro hnd
    exact h3 (by rw [List.card_toFinset, List.dedup_eq_self.mpr hnd])
  · refine iff_of_true rfl ⟨not_not.mp h1, not_not.mp h2, ?_⟩
    have hlen : ranking.dedup.length = ranking.length := by
      have hc := not_not.mp h3
      rw [List.card_toFinset] at hc
      omega
    exact List.dedup_eq_self.mp (ranking.dedup_sublist.eq_of_length hlen)

theorem validate_ranking_iff_witness :
    validate_ranking [0, 1] ({0, 1} : Finset Nat) = true :=
  (validate_ranking_iff [0, 1] {0, 1}).mpr (by decide)

/-! ### Condorcet winner detection -/

theorem condorcetCondition_iff (p : α → α → Nat) (l : List α) (c : α) :
    condorcetCondition p l c = true ↔ ∀ y ∈ l, c = y ∨ p y c < p c y := by
  simp [condorcetCondition, List.all_eq_true]

theorem condorcet_unique (p : α → α → Nat) (l : List α) {c1 c2 : α}
    (h1 : c1 ∈ l) (h2 : c2 ∈ l)
    (hc1 : condorcetCondition p l c1 = true) (hc2 : condorcetCondition p l c2 = true) :
    c1 = c2 := by
  by_contra hne
  rcases (condorcetCondition_iff p l c1).mp hc1 c2 h2 with h | h
  · exact hne h
  · rcases (condorcetCondition_iff p l c2).mp hc2 c1 h1 with h' | h'
    · exact hne h'.symm
    · exact absurd h' (Nat.lt_asymm h)

theorem find_condorcet_eq_some_iff (p : α → α → Nat) (l : List α) (c : α) :
    find_condorcet_winner p l = some c ↔ c ∈ l ∧ condorcetCondition p l c = true := by
  constructor
  · intro h
    exact ⟨List.mem_of_find?_eq_some h, List.find?_some h⟩
  · rintro ⟨hmem, hcond⟩
    rcases hfind : find_condorcet_winner p l with _ | w
    · rw [find_condorcet_winner, List.find?_eq_none] at hfind
      exact absurd hcond (hfind c hmem)
    · have hw : w ∈ l ∧ condorcetCondition p l w = true :=
        ⟨List.mem_of_find?_eq_some hfind, List.find?_some hfind⟩
      rw [condorcet_unique p l hw.1 hmem hw.2 hcond]

theorem condorcetCondition_perm {l1 l2 : List α} (hperm : List.Perm l1 l2)
    (p : α → α → Nat) (c : α) :
    condorcetCondition p l1 c = condorcetCondition p l2 c := by
  rcases h2 : condorcetCondition p l2 c with _ | _
  · rcases h1 : condorcetCondition p l1 c with _ | _
    · rfl
    · rw [condorcetCondition_iff] at h1
      have hl2 : condorcetCondition p l2 c = true :=
        (condorcetCondition_iff p l2 c).mpr fun y hy => h1 y (hperm.mem_iff.mpr hy)
      simp [h2] at hl2
  · rw [condorcetCondition_iff] at h2
    exact (condorcetCondition_iff p l1 c).mpr fun y hy => h2 y (hperm.mem_iff.mp hy)

theorem find_condorcet_perm {l1 l2 : List α} (hperm : List.Perm l1 l2) (p : α → α → Nat) :
    find_condorcet_winner p l1 = find_condorcet_winner p l2 := by
  rcases h1 : find_condorcet_winner p l1 with _ | w
  · rcases h2 : find_condorcet_winner p l2 with _ | w
    · rfl
    · have hw := (find_condorcet_eq_some_iff p l2 w).mp h2
      rw [find_condorcet_winner, List.find?_eq_none] at h1
      have := h1 w (hperm.mem_iff.mpr hw.1)
      rw [condorcetCondition_perm hperm p w] at this
      exact absurd hw.2 this
  · have hw := (find_condorcet_eq_some_iff p l1 w).mp h1
    symm
    exact (find_condorcet_eq_some_iff p l2 w).mpr
      ⟨hperm.mem_iff.mp hw.1, (condorcetCondition_perm hperm p w).symm.trans hw.2⟩

/-- C1: at most one candidate of the universe satisfies the Condorcet
condition (strictly beating every other candidate in the pairwise matrix),
`find_condorcet_winner` returns exactly the candidates of the universe
satisfying it (so that candidate when one exists and `none` otherwise), and
its result is invariant under permuting the iteration order of the
universe. -/
theorem condorcet_winner_unique_and_order_independent (p : α → α → Nat)
    (l1 l2 : List α) (hperm : List.Perm l1 l2) :
    (∀ c1 ∈ l1, ∀ c2 ∈ l1, condorcetCondition p l1 c1 = true →
        condorcetCondition p l1 c2 = true → c1 = c2) ∧
      (∀ c, find_condorcet_winner p l1 = some c ↔
        c ∈ l1 ∧ condorcetCondition p l1 c = true) ∧
      find_condorcet_winner p l1 = find_condorcet_winner p l2 := by
  exact ⟨fun c1 h1 c2 h2 hc1 hc2 => condorcet_unique p l1 h1 h2 hc1 hc2,
    fun c => find_condorcet_eq_some_iff p l1 c,
    find_condorcet_perm hperm p⟩

theorem condorcet_winner_unique_witness :
    find_condorcet_winner pEx [0, 1] = find_condorcet_winner pEx [1, 0] :=
  (condorcet_winner_unique_and_order_independent pEx [0, 1] [1, 0] (by decide)).2.2

/-! ### Floyd–Warshall closure: single-update facts -/

theorem fwUpdate_diag (d : α → α → Nat) (k i j a : α) :
    fwUpdate d k i j a a = d a a := by
  unfold fwUpdate
  split_ifs with h
  · exact absurd (h.1.symm.trans h.2.1) h.2.2
  · rfl

theorem fwUpdate_le (d : α → α → Nat) (k i j a b : α) :
    d a b ≤ fwUpdate d k i j a b := by
  unfold fwUpdate
  split_ifs with h
  · rcases h with ⟨rfl, rfl, -⟩
    exact le_max_left _ _
  · exact le_rfl

theorem fwUpdate_rowcol (d : α → α → Nat) (k i j : α) (hkk : d k k = 0) :
    (∀ x, fwUpdate d k i j x k = d x k) ∧ ∀ x, fwUpdate d k i j k x = d k x := by
  constructor
  · intro x
    unfold fwUpdate
    split_ifs with h
    · rcases h with ⟨rfl, rfl, -⟩
      rw [hkk]
      simp
    · rfl
  · intro x
    unfold fwUpdate
    split_ifs with h
    · rcases h with ⟨rfl, rfl, -⟩
      rw [hkk]
      simp
    · rfl

theorem fwUpdate_eq_self (d : α → α → Nat) (k i j : α)
    (h : i = j ∨ min (d i k) (d k j) ≤ d i j) : fwUpdate d k i j = d := by
  funext a b
  unfold fwUpdate
  split_ifs with hc
  · rcases hc with ⟨rfl, rfl, hij⟩
    rcases h with h | h
    · exact absurd h hij
    · exact max_eq_left h
  · rfl

/-! ### Floyd–Warshall closure: inner loop -/

theorem fwInner_le (k i : α) (js : List α) (d : α → α → Nat) (a b : α) :
    d a b ≤ fwInner k i js d a b := by
  unfold fwInner
  exact foldlInvariant _ (fun m => ∀ a b, d a b ≤ m a b) js d (fun _ _ => le_rfl)
    (fun acc j _ hacc a b => le_trans (hacc a b) (fwUpdate_le acc k i j a b)) a b

theorem fwInner_diag (k i : α) (js : List α) (d : α → α → Nat) (a : α) :
    fwInner k i js d a a = d a a := by
  unfold fwInner
  exact foldlInvariant _ (fun m => ∀ x, m x x = d x x) js d (fun _ => rfl)
    (fun acc j _ hacc x => (fwUpdate_diag acc k i j x).trans (hacc x)) a

theorem fwInner_rowcol (k i : α) (js : List α) (d : α → α → Nat) (hkk : d k k = 0) :
    (∀ x, fwInner k i js d x k = d x k) ∧ ∀ x, fwInner k i js d k x = d k x := by
  unfold fwInner
  exact foldlInvariant _
    (fun m => (∀ x, m x k = d x k) ∧ ∀ x, m k x = d k x) js d
    ⟨fun _ => rfl, fun _ => rfl⟩
    (fun acc j _ hacc => by
      have hkk2 : acc k k = 0 := (hacc.1 k).trans hkk
      have hr := fwUpdate_rowcol acc k i j hkk2
      exact ⟨fun x => (hr.1 x).trans (hacc.1 x), fun x => (hr.2 x).trans (hacc.2 x)⟩)

theorem fwInner_establish (k i : α) (js : List α) :
    ∀ d : α → α → Nat, d k k = 0 → ∀ j ∈ js, i ≠ j →
      min (d i k) (d k j) ≤ fwInner k i js d i j := by
  induction js with
  | nil =>
    intro d _ j hj
    exact absurd hj (List.not_mem_nil j)
  | cons j0 rest ih =>
    intro d hkk j hj hij
    have hstep : fwInner k i (j0 :: rest) d = fwInner k i rest (fwUpdate d k i j0) := rfl
    rcases List.mem_cons.mp hj with rfl | hjr
    · rw [hstep]
      have h1 : min (d i k) (d k j) ≤ fwUpdate d k i j i j := by
        unfold fwUpdate
        rw [if_pos ⟨rfl, rfl, hij⟩]
        exact le_max_right _ _
      exact le_trans h1 (fwInner_le k i rest (fwUpdate d k i j) i j)
    · rw [hstep]
      have hrc := fwUpdate_rowcol d k i j0 hkk
      have hkk2 : fwUpdate d k i j0 k k = 0 := (fwUpdate_diag d k i j0 k).trans hkk
      have hres := ih (fwUpdate d k i j0) hkk2 j hjr hij
      rw [hrc.1 i, hrc.2 j] at hres
      exact hres

theorem fwInner_upper (k i : α) (js : List α) (d : α → α → Nat) (hkk : d k k = 0)
    (a b : α) : fwInner k i js d a b ≤ max (d a b) (min (d a k) (d k b)) := by
  unfold fwInner
  refine (foldlInvariant (fun m j => fwUpdate m k i j)
    (fun m => ((∀ x, m x k = d x k) ∧ ∀ x, m k x = d k x) ∧
      ∀ a b, m a b ≤ max (d a b) (min (d a k) (d k b))) js d
    ⟨⟨fun _ => rfl, fun _ => rfl⟩, fun a b => le_max_left _ _⟩ ?_).2 a b
  intro acc j _ hacc
  have hkk2 : acc k k = 0 := (hacc.1.1 k).trans hkk
  have hrc := fwUpdate_rowcol acc k i j hkk2
  refine ⟨⟨fun x => (hrc.1 x).trans (hacc.1.1 x),
    fun x => (hrc.2 x).trans (hacc.1.2 x)⟩, ?_⟩
  intro a b
  simp only [fwUpdate]
  split_ifs with hc
  · rcases hc with ⟨rfl, rfl, -⟩
    rw [hacc.1.1 a, hacc.1.2 b]
    exact max_le (hacc.2 a b) (le_max_right _ _)
  · exact hacc.2 a b

theorem fwInner_eq_self (k i : α) (js : List α) (d : α → α → Nat)
    (h : ∀ j ∈ js, i = j ∨ min (d i k) (d k j) ≤ d i j) : fwInner k i js d = d := by
  induction js with
  | nil => rfl
  | cons j0 rest ih =>
    have h0 : fwUpdate d k i j0 = d := fwUpdate_eq_self d k i j0 (h j0 (by simp))
    have hstep : fwInner k i (j0 :: rest) d = fwInner k i rest (fwUpdate d k i j0) := rfl
    rw [hstep, h0]
    exact ih (fun j hj => h j (by simp [hj]))

/-! ### Floyd–Warshall closure: one round (fixed intermediate `k`) -/

theorem fwRound_le (k : α) (is js : List α) (d : α → α → Nat) (a b : α) :
    d a b ≤ fwRound k is js d a b := by
  unfold fwRound
  exact foldlInvariant _ (fun m => ∀ a b, d a b ≤ m a b) is d (fun _ _ => le_rfl)
    (fun acc i _ hacc a b => le_trans (hacc a b) (fwInner_le k i js acc a b)) a b

theorem fwRound_diag (k : α) (is js : List α) (d : α → α → Nat) (a : α) :
    fwRound k is js d a a = d a a := by
  unfold fwRound
  exact foldlInvariant _ (fun m => ∀ x, m x x = d x x) is d (fun _ => rfl)
    (fun acc i _ hacc x => (fwInner_diag k i js acc x).trans (hacc x)) a

theorem fwRound_diagZero (k : α) (is js : List α) (d : α → α → Nat) (hd : DiagZero d) :
    DiagZero (fwRound k is js d) :=
  fun a => (fwRound_diag k is js d a).trans (hd a)

theorem fwRound_rowcol (k : α) (is js : List α) (d : α → α → Nat) (hkk : d k k = 0) :
    (∀ x, fwRound k is js d x k = d x k) ∧ ∀ x, fwRound k is js d k x = d k x := by
  unfold fwRound
  exact foldlInvariant _
    (fun m => (∀ x, m x k = d x k) ∧ ∀ x, m k x = d k x) is d
    ⟨fun _ => rfl, fun _ => rfl⟩
    (fun acc i _ hacc => by
      have hkk2 : acc k k = 0 := (hacc.1 k).trans hkk
      have hr := fwInner_rowcol k i js acc hkk2
      exact ⟨fun x => (hr.1 x).trans (hacc.1 x), fun x => (hr.2 x).trans (hacc.2 x)⟩)

theorem fwRound_establish (k : α) (is js : List α) :
    ∀ d : α → α → Nat, d k k = 0 → ∀ i ∈ is, ∀ j ∈ js, i ≠ j →
      min (d i k) (d k j) ≤ fwRound k is js d i j := by
  induction is with
  | nil =>
    intro d _ i hi
    exact absurd hi (List.not_mem_nil i)
  | cons i0 rest ih =>
    intro d hkk i hi j hj hij
    have hstep : fwRound k (i0 :: rest) js d = fwRound k rest js (fwInner k i0 js d) := rfl
    rcases List.mem_cons.mp hi with rfl | hir
    · rw [hstep]
      exact le_trans (fwInner_establish k i js d hkk j hj hij)
        (fwRound_le k rest js (fwInner k i js d) i j)
    · rw [hstep]
      have hrc := fwInner_rowcol k i0 js d hkk
      have hkk2 : fwInner k i0 js d k k = 0 := (fwInner_diag k i0 js d k).trans hkk
      have hres := ih (fwInner k i0 js d) hkk2 i hir j hj hij
      rw [hrc.1 i, hrc.2 j] at hres
      exact hres

theorem fwRound_upper (k : α) (is js : List α) (d : α → α → Nat) (hkk : d k k = 0)
    (a b : α) : fwRound k is js d a b ≤ max (d a b) (min (d a k) (d k b)) := by
  unfold fwRound
  refine (foldlInvariant (fun m i => fwInner k i js m)
    (fun m => ((∀ x, m x k = d x k) ∧ ∀ x, m k x = d k x) ∧
      ∀ a b, m a b ≤ max (d a b) (min (d a k) (d k b))) is d
    ⟨⟨fun _ => rfl, fun _ => rfl⟩, fun a b => le_max_left _ _⟩ ?_).2 a b
  intro acc i _ hacc
  have hkk2 : acc k k = 0 := (hacc.1.1 k).trans hkk
  have hrc := fwInner_rowcol k i js acc hkk2
  refine ⟨⟨fun x => (hrc.1 x).trans (hacc.1.1 x),
    fun x => (hrc.2 x).trans (hacc.1.2 x)⟩, ?_⟩
  intro a b
  have hub := fwInner_upper k i js acc hkk2 a b
  rw [hacc.1.1 a, hacc.1.2 b] at hub
  exact le_trans hub (max_le (hacc.2 a b) (le_max_right _ _))

theorem fwRound_closed (k : α) (cands : List α) (d : α → α → Nat) (hkk : d k k = 0) :
    FWClosed cands (fwRound k cands cands d) k := by
  intro i hi j hj hij
  have hrc := fwRound_rowcol k cands cands d hkk
  rw [hrc.1 i, hrc.2 j]
  exact fwRound_establish k cands cands d hkk i hi j hj hij

theorem fwRound_preserves_closed (cands : List α) (d : α → α → Nat)
    (hdiag : DiagZero d) {k : α} (hk : k ∈ cands) (hcl : FWClosed cands d k)
    {k' : α} (hk' : k' ∈ cands) :
    FWClosed cands (fwRound k' cands cands d) k := by
  intro i hi j hj hij
  have hub1 : fwRound k' cands cands d i k ≤ max (d i k) (min (d i k') (d k' k)) :=
    fwRound_upper k' cands cands d (hdiag k') i k
  have hub2 : fwRound k' cands cands d k j ≤ max (d k j) (min (d k k') (d k' j)) :=
    fwRound_upper k' cands cands d (hdiag k') k j
  have hest : min (d i k') (d k' j) ≤ fwRound k' cands cands d i j :=
    fwRound_establish k' cands cands d (hdiag k') i hi j hj hij
  have hmono : d i j ≤ fwRound k' cands cands d i j := fwRound_le k' cands cands d i j
  have hT1 : min (d i k) (d k j) ≤ fwRound k' cands cands d i j :=
    le_trans (hcl i hi j hj hij) hmono
  have hT2 : min (d i k) (min (d k k') (d k' j)) ≤ fwRound k' cands cands d i j := by
    by_cases hik' : i = k'
    · subst hik'
      exact le_trans (le_trans (min_le_right _ _) (min_le_right _ _)) hmono
    · have h2 : min (d i k) (d k k') ≤ d i k' := hcl i hi k' hk' hik'
      calc min (d i k) (min (d k k') (d k' j))
          = min (min (d i k) (d k k')) (d k' j) := (min_assoc _ _ _).symm
        _ ≤ min (d i k') (d k' j) := min_le_min h2 le_rfl
        _ ≤ fwRound k' cands cands d i j := hest
  have hT3 : min (min (d i k') (d k' k)) (d k j) ≤ fwRound k' cands cands d i j := by
    by_cases hjk' : j = k'
    · subst hjk'
      exact le_trans (le_trans (min_le_left _ _) (min_le_left _ _)) hmono
    · have h3 : min (d k' k) (d k j) ≤ d k' j :=
        hcl k' hk' j hj (fun h => hjk' h.symm)
      calc min (min (d i k') (d k' k)) (d k j)
          = min (d i k') (min (d k' k) (d k j)) := min_assoc _ _ _
        _ ≤ min (d i k') (d k' j) := min_le_min le_rfl h3
        _ ≤ fwRound k' cands cands d i j := hest
  have hT4 : min (min (d i k') (d k' k)) (min (d k k') (d k' j)) ≤
      fwRound k' cands cands d i j :=
    le_trans (min_le_min (min_le_left _ _) (min_le_right _ _)) hest
  have hm1 : min (fwRound k' cands cands d i k) (fwRound k' cands cands d k j) ≤
      max (d i k) (min (d i k') (d k' k)) :=
    le_trans (min_le_left _ _) hub1
  have hm2 : min (fwRound k' cands cands d i k) (fwRound k' cands cands d k j) ≤
      max (d k j) (min (d k k') (d k' j)) :=
    le_trans (min_le_right _ _) hub2
  rcases le_max_iff.mp hm1 with ha | hx
  · rcases le_max_iff.mp hm2 with hb | hy
    · exact le_trans (le_min ha hb) hT1
    · exact le_trans (le_min ha hy) hT2
  · rcases le_max_iff.mp hm2 with hb | hy
    · exact le_trans (le_min hx hb) hT3
    · exact le_trans (le_min hx hy) hT4

theorem fwRound_eq_self (k : α) (is js : List α) (d : α → α → Nat)
    (h : ∀ i ∈ is, ∀ j ∈ js, i = j ∨ min (d i k) (d k j) ≤ d i j) :
    fwRound k is js d = d := by
  induction is with
  | nil => rfl
  | cons i0 rest ih =>
    have h0 : fwInner k i0 js d = d := fwInner_eq_self k i0 js d (h i0 (by simp))
    have hstep : fwRound k (i0 :: rest) js d = fwRound k rest js (fwInner k i0 js d) := rfl
    rw [hstep, h0]
    exact ih (fun i hi => h i (by simp [hi]))

/-! ### Floyd–Warshall closure: the full pass -/

theorem fwPass_diagZero (ks js : List α) (d : α → α → Nat) (hd : DiagZero d) :
    DiagZero (fwPass ks js d) := by
  unfold fwPass
  exact foldlInvariant _ DiagZero ks d hd
    (fun acc k _ hacc => fwRound_diagZero k js js acc hacc)

theorem fwPass_preserves_closed (cands : List α) :
    ∀ (ks : List α) (d : α → α → Nat), (∀ x ∈ ks, x ∈ cands) → DiagZero d →
      ∀ k, k ∈ cands → FWClosed cands d k → FWClosed cands (fwPass ks cands d) k := by
  intro ks
  induction ks with
  | nil =>
    intro d _ _ k _ hcl
    exact hcl
  | cons k0 rest ih =>
    intro d hsub hd k hk hcl
    have hk0 : k0 ∈ cands := hsub k0 (by simp)
    have hstep : fwPass (k0 :: rest) cands d = fwPass rest cands (fwRound k0 cands cands d) :=
      rfl
    rw [hstep]
    exact ih (fwRound k0 cands cands d) (fun x hx => hsub x (by simp [hx]))
      (fwRound_diagZero k0 cands cands d hd) k hk
      (fwRound_preserves_closed cands d hd hk hcl hk0)

theorem fwPass_closed (cands : List α) :
    ∀ (ks : List α) (d : α → α → Nat), (∀ x ∈ ks, x ∈ cands) → DiagZero d →
      ∀ k ∈ ks, FWClosed cands (fwPass ks cands d) k := by
  intro ks
  induction ks with
  | nil =>
    intro d _ _ k hk
    exact absurd hk (List.not_mem_nil k)
  | cons k0 rest ih =>
    intro d hsub hd k hk
    have hstep : fwPass (k0 :: rest) cands d = fwPass rest cands (fwRound k0 cands cands d) :=
      rfl
    rw [hstep]
    rcases List.mem_cons.mp hk with rfl | hkr
    · exact fwPass_preserves_closed cands rest (fwRound k cands cands d)
        (fun x hx => hsub x (by simp [hx]))
        (fwRound_diagZero k cands cands d hd) k (hsub k (by simp))
        (fwRound_closed k cands d (hd k))
    · exact ih (fwRound k0 cands cands d) (fun x hx => hsub x (by simp [hx]))
        (fwRound_diagZero k0 cands cands d hd) k hkr

theorem fwPass_eq_self (ks cands : List α) (d : α → α → Nat)
    (h : ∀ k ∈ ks, FWClosed cands d k) : fwPass ks cands d = d := by
  induction ks with
  | nil => rfl
  | cons k0 rest ih =>
    have h0 : fwRound k0 cands cands d = d := by
      apply fwRound_eq_self
      intro i hi j hj
      by_cases hij : i = j
      · exact Or.inl hij
      · exact Or.inr (h k0 (by simp) i hi j hj hij)
    have hstep : fwPass (k0 :: rest) cands d = fwPass rest cands (fwRound k0 cands cands d) :=
      rfl
    rw [hstep, h0]
    exact ih (fun k hk => h k (by simp [hk]))

theorem schulzeInit_diagZero (p : α → α → Nat) : DiagZero (schulzeInit p) :=
  fun a => by simp [schulzeInit]

theorem schulzeClosure_closed (p : α → α → Nat) (cands : List α) :
    ∀ k ∈ cands, FWClosed cands (schulzeClosure p cands) k :=
  fun k hk =>
    fwPass_closed cands cands (schulzeInit p) (fun _ hx => hx) (schulzeInit_diagZero p) k hk

/-- C6: one full Floyd–Warshall pass over all intermediates is a fixed point:
running the relaxation a second time on its own output changes no entry of
the path-strength matrix. -/
theorem schulze_closure_idempotent (p : α → α → Nat) (cands : List α) :
    fwPass cands cands (fwPass cands cands (schulzeInit p)) =
      fwPass cands cands (schulzeInit p) :=
  fwPass_eq_self cands cands (fwPass cands cands (schulzeInit p))
    (fun k hk => schulzeClosure_closed p cands k hk)

/-! ### Schulze winner set -/

theorem schulze_strict_trans (cands : List α) (d : α → α → Nat)
    (hcl : ∀ k ∈ cands, FWClosed cands d k)
    {a b c : α} (ha : a ∈ cands) (hb : b ∈ cands) (hc : c ∈ cands)
    (hab : d b a < d a b) (hbc : d c b < d b c) : d c a < d a c := by
  by_contra hneg
  push_neg at hneg
  have hac : a ≠ c := by
    rintro rfl
    exact Nat.lt_asymm hab hbc
  have h1 : min (d a b) (d b c) ≤ d a c := hcl b hb a ha c hc hac
  rcases le_total (d b c) (d a b) with hcase | hcase
  · have hmin : d b c ≤ d a c := by
      rw [min_eq_right hcase] at h1
      exact h1
    have hcb : c ≠ b := by
      rintro rfl
      exact Nat.lt_irrefl _ hbc
    have h2 : min (d c a) (d a b) ≤ d c b := hcl a ha c hc b hb hcb
    have hge : d b c ≤ d c b := le_trans (le_min (le_trans hmin hneg) hcase) h2
    exact absurd hbc (not_lt.mpr hge)
  · have hmin : d a b ≤ d a c := by
      rw [min_eq_left hcase] at h1
      exact h1
    have hba : b ≠ a := by
      rintro rfl
      exact Nat.lt_irrefl _ hab
    have h3 : min (d b c) (d c a) ≤ d b a := hcl c hc b hb a ha hba
    have hge : d a b ≤ d b a := le_trans (le_min hcase (le_trans hmin hneg)) h3
    exact absurd hab (not_lt.mpr hge)

theorem exists_schulze_maximal (d : α → α → Nat) :
    ∀ cands : List α, cands ≠ [] →
      (∀ x ∈ cands, ∀ y ∈ cands, ∀ z ∈ cands,
        d y x < d x y → d z y < d y z → d z x < d x z) →
      ∃ m ∈ cands, ∀ j ∈ cands, ¬ d m j < d j m := by
  intro cands
  induction cands with
  | nil =>
    intro h _
    exact absurd rfl h
  | cons x rest ih =>
    intro _ htrans
    rcases eq_or_ne rest [] with rfl | hrest
    · refine ⟨x, by simp, ?_⟩
      intro j hj
      rcases List.mem_singleton.mp hj with rfl
      exact Nat.lt_irrefl _
    · obtain ⟨m, hm, hmax⟩ := ih hrest
        (fun x' hx' y hy z hz => htrans x' (by simp [hx']) y (by simp [hy]) z (by simp [hz]))
      by_cases hxm : d m x < d x m
      · refine ⟨x, by simp, ?_⟩
        intro j hj
        rcases List.mem_cons.mp hj with rfl | hjr
        · exact Nat.lt_irrefl _
        · intro hbeat
          exact hmax j hjr
            (htrans j (by simp [hjr]) x (by simp) m (by simp [hm]) hbeat hxm)
      · refine ⟨m, by simp [hm], ?_⟩
        intro j hj
        rcases List.mem_cons.mp hj with rfl | hjr
        · exact hxm
        · exact hmax j hjr

/-- C5: over any non-empty candidate universe the Schulze winner set computed
after the Floyd–Warshall closure is non-empty, so the random fallback branch
of `schulze_method` taken when no winner is found is unreachable. -/
theorem schulze_winner_set_nonempty (p : α → α → Nat) (cands : List α) (h : cands ≠ []) :
    schulze_winners p cands ≠ [] := by
  have hcl := schulzeClosure_closed p cands
  obtain ⟨m, hm, hmax⟩ := exists_schulze_maximal (schulzeClosure p cands) cands h
    (fun x hx y hy z hz hxy hyz =>
      schulze_strict_trans cands (schulzeClosure p cands) hcl hx hy hz hxy hyz)
  have hpred : schulzeWinnerPred p cands m = true := by
    rw [schulzeWinnerPred, List.all_eq_true]
    intro j hj
    have hnb := hmax j hj
    simp [hnb]
  have hmem : m ∈ schulze_winners p cands := List.mem_filter.mpr ⟨hm, hpred⟩
  intro hnil
  rw [hnil] at hmem
  exact absurd hmem (List.not_mem_nil m)

theorem schulze_winner_set_nonempty_witness :
    schulze_winners pZero [0] ≠ [] :=
  schulze_winner_set_nonempty pZero [0] (by decide)

/-- C4: whenever the Schulze winner set is non-empty (and the oracle standing
for `random.choice` returns a member of its argument), `schulze_method`
returns a candidate of the universe against whom no other candidate has a
strictly stronger path: a member of the Schulze winner set as defined from
the closed path-strength matrix. -/
theorem schulze_method_returns_winner (pick : List α → α) (p : α → α → Nat)
    (cands : List α) (hlen : 2 ≤ cands.length)
    (hw : schulze_winners p cands ≠ [])
    (hpick : ∀ l : List α, l ≠ [] → pick l ∈ l) :
    schulze_method pick p cands ∈ cands ∧
      ∀ j ∈ cands, j ≠ schulze_method pick p cands →
        ¬ schulzeClosure p cands (schulze_method pick p cands) j <
          schulzeClosure p cands j (schulze_method pick p cands) := by
  have hmem : schulze_method pick p cands ∈ schulze_winners p cands := by
    unfold schulze_method
    rcases hws : schulze_winners p cands with _ | ⟨w1, _ | ⟨w2, ws⟩⟩
    · exact absurd hws hw
    · simp
    · exact hpick _ (by simp)
  obtain ⟨hr, hp⟩ := List.mem_filter.mp hmem
  refine ⟨hr, ?_⟩
  intro j hj hjr
  rw [schulzeWinnerPred, List.all_eq_true] at hp
  have hbool := hp j hj
  have hprop : schulze_method pick p cands = j ∨
      ¬ schulzeClosure p cands (schulze_method pick p cands) j <
        schulzeClosure p cands j (schulze_method pick p cands) := by
    simpa using hbool
  rcases hprop with hb | hb
  · exact absurd hb.symm hjr
  · exact hb

theorem schulze_method_returns_winner_witness :
    schulze_method pickEx pZero [0, 1] ∈ [0, 1] :=
  (schulze_method_returns_winner pickEx pZero [0, 1] (by decide) (by decide)
    (fun l hl => by
      rcases l with _ | ⟨x, xs⟩
      · exact absurd rfl hl
      · simp [pickEx])).1

/-! ### Borda score total -/

theorem sum_positionalScore (n : Nat) (v : List α) :
    ∀ (pos : Nat) (S : Finset α), (∀ x ∈ v, x ∈ S) →
      ∑ c in S, positionalScore n pos v c =
        ∑ i in Finset.range v.length, (n - (pos + i)) := by
  induction v with
  | nil =>
    intro pos S _
    simp [positionalScore]
  | cons x xs ih =>
    intro pos S hsub
    have hx : x ∈ S := hsub x (by simp)
    simp only [positionalScore]
    rw [Finset.sum_add_distrib]
    have h1 : ∑ c in S, (if x = c then n - pos else 0) = n - pos := by
      rw [Finset.sum_ite_eq S x fun _ => n - pos, if_pos hx]
    rw [h1, ih (pos + 1) S (fun y hy => hsub y (by simp [hy])), List.length_cons,
      Finset.sum_range_succ']
    have h2 : ∑ i in Finset.range xs.length, (n - (pos + 1 + i)) =
        ∑ i in Finset.range xs.length, (n - (pos + (i + 1))) :=
      Finset.sum_congr rfl (fun i _ => by omega)
    rw [h2, Nat.add_zero]
    exact Nat.add_comm _ _

theorem sum_range_sub_eq (n : Nat) :
    ∑ i in Finset.range n, (n - i) = n * (n + 1) / 2 := by
  have hrefl : ∑ j in Finset.range n, (n - (n - 1 - j)) = ∑ j in Finset.range n, (n - j) :=
    Finset.sum_range_reflect (fun i => n - i) n
  have hstep : ∑ j in Finset.range n, (n - (n - 1 - j)) = ∑ j in Finset.range n, (j + 1) :=
    Finset.sum_congr rfl (fun j hj => by
      have := Finset.mem_range.mp hj
      omega)
  have hsum : ∑ j in Finset.range n, (j + 1) = (∑ j in Finset.range n, j) + n := by
    rw [Finset.sum_add_distrib]
    simp
  have hid : (∑ j in Finset.range n, j) * 2 = n * (n - 1) := Finset.sum_range_id_mul_two n
  have hexp : n * (n - 1) + n * 2 = n * (n + 1) := by
    rcases n with _ | m
    · rfl
    · simp only [Nat.succ_sub_one]
      ring
  have h2 : (∑ i in Finset.range n, (n - i)) * 2 = n * (n + 1) := by
    rw [← hrefl, hstep, hsum, Nat.add_mul, hid, hexp]
  exact (Nat.div_eq_of_eq_mul_left (by norm_num) h2.symm).symm

theorem borda_sum_aux (n : Nat) :
    ∀ (votes : List (List α)) (S : Finset α),
      (∀ v ∈ votes, ∀ x ∈ v, x ∈ S) → (∀ v ∈ votes, v.length = n) →
      ∑ c in S, (votes.map (fun v => positionalScore n 0 v c)).sum =
        votes.length * (n * (n + 1) / 2) := by
  intro votes
  induction votes with
  | nil =>
    intro S _ _
    simp
  | cons v vs ih =>
    intro S hsub hlen
    simp only [List.map_cons, List.sum_cons]
    rw [Finset.sum_add_distrib]
    have h1 : ∑ c in S, positionalScore n 0 v c = n * (n + 1) / 2 := by
      rw [sum_positionalScore n v 0 S (hsub v (by simp)), hlen v (by simp)]
      have hz : ∀ i ∈ Finset.range n, n - (0 + i) = n - i := fun i _ => by omega
      rw [Finset.sum_congr rfl hz, sum_range_sub_eq]
    rw [h1, ih S (fun w hw x hx => hsub w (by simp [hw]) x hx)
      (fun w hw => hlen w (by simp [hw])), List.length_cons]
    ring

/-- C8: when every ballot has the same length `n`, the Borda scores
accumulated by `borda_count_tiebreaker` (position `p` contributing `n - p`)
sum, over all candidates, to `total_ballots * n * (n + 1) / 2`. -/
theorem borda_total_invariant (votes : List (List α)) (hne : votes ≠ [])
    (hlen : ∀ v ∈ votes, v.length = borda_n votes) :
    ∑ c in votes.flatten.toFinset, borda_scores votes c =
      votes.length * (borda_n votes * (borda_n votes + 1) / 2) := by
  unfold borda_scores
  exact borda_sum_aux (borda_n votes) votes votes.flatten.toFinset
    (fun v hv x hx => List.mem_toFinset.mpr (List.mem_flatten.mpr ⟨v, hv, hx⟩))
    hlen

theorem borda_total_invariant_witness :
    ∑ c in ([[0, 1], [1, 0]] : List (List Nat)).flatten.toFinset,
      borda_scores [[0, 1], [1, 0]] c =
      ([[0, 1], [1, 0]] : List (List Nat)).length *
        (borda_n ([[0, 1], [1, 0]] : List (List Nat)) *
          (borda_n ([[0, 1], [1, 0]] : List (List Nat)) + 1) / 2) :=
  borda_total_invariant [[0, 1], [1, 0]] (by decide) (by decide)

/-! ### Orchestration helpers -/

theorem dedup_length_le_one (l : List α) (h : l.dedup.length ≤ 1) :
    ∀ a ∈ l, ∀ b ∈ l, a = b := by
  intro a ha b hb
  have ha2 : a ∈ l.dedup := List.mem_dedup.mpr ha
  have hb2 : b ∈ l.dedup := List.mem_dedup.mpr hb
  rcases hd : l.dedup with _ | ⟨x, xs⟩
  · rw [hd] at ha2
    exact absurd ha2 (List.not_mem_nil a)
  · rcases xs with _ | ⟨y, ys⟩
    · rw [hd] at ha2 hb2
      exact (List.mem_singleton.mp ha2).trans (List.mem_singleton.mp hb2).symm
    · rw [hd] at h
      simp at h

theorem first_ballot_ne_nil_of_consistent {v0 : List α} {vs : List (List α)}
    (hlen : ((List.map List.length (v0 :: vs)).dedup).length ≤ 1)
    (hfl : (v0 :: vs).flatten ≠ []) : v0 ≠ [] := by
  rintro rfl
  apply hfl
  have hall : ∀ w ∈ vs, w = ([] : List α) := by
    intro w hw
    have hmem : w.length ∈ List.map List.length (([] : List α) :: vs) :=
      List.mem_map_of_mem List.length (List.mem_cons_of_mem _ hw)
    have h0 : (0 : Nat) ∈ List.map List.length (([] : List α) :: vs) := by simp
    have := dedup_length_le_one _ hlen w.length hmem 0 h0
    exact List.length_eq_zero.mp this
  simp only [List.flatten_cons, List.nil_append]
  exact List.flatten_eq_nil_iff.mpr hall

theorem cleanVotes_mem_ne_nil {votes : List (List α)} {s : List α} {v : List α}
    (h : v ∈ cleanVotes votes s) : v ≠ [] := by
  unfold cleanVotes at h
  have h2 := (List.mem_filter.mp h).2
  intro hnil
  rw [hnil] at h2
  simp at h2

theorem maxByFirst_aux_ne_none (score : α → Nat) :
    ∀ (l : List α) (acc : Option α), acc ≠ none →
      l.foldl
        (fun best x =>
          match best with
          | none => some x
          | some m => if score x > score m then some x else some m)
        acc ≠ none := by
  intro l
  induction l with
  | nil =>
    intro acc h
    exact h
  | cons x xs ih =>
    intro acc h
    simp only [List.foldl_cons]
    apply ih
    rcases acc with _ | m
    · show some x ≠ none
      simp
    · show (if score x > score m then some x else some m) ≠ none
      split_ifs <;> simp

theorem maxByFirst_ne_none (score : α → Nat) (l : List α) (h : l ≠ []) :
    maxByFirst score l ≠ none := by
  rcases l with _ | ⟨x, xs⟩
  · exact absurd rfl h
  · unfold maxByFirst
    simp only [List.foldl_cons]
    apply maxByFirst_aux_ne_none
    show some x ≠ none
    simp

theorem insertionOrder_aux_ne_nil :
    ∀ l acc : List α, acc ≠ [] →
      l.foldl (fun acc x => if x ∈ acc then acc else acc ++ [x]) acc ≠ [] := by
  intro l
  induction l with
  | nil =>
    intro acc h
    exact h
  | cons x xs ih =>
    intro acc h
    simp only [List.foldl_cons]
    apply ih
    show (if x ∈ acc then acc else acc ++ [x]) ≠ []
    split_ifs with hx
    · exact h
    · simp

theorem insertionOrder_ne_nil (l : List α) (h : l ≠ []) : insertionOrder l ≠ [] := by
  rcases l with _ | ⟨x, xs⟩
  · exact absurd rfl h
  · unfold insertionOrder
    simp only [List.foldl_cons]
    apply insertionOrder_aux_ne_nil
    show (if x ∈ ([] : List α) then ([] : List α) else [] ++ [x]) ≠ []
    simp

theorem borda_count_tiebreaker_ne_none (votes : List (List α))
    (h : votes.flatten ≠ []) : borda_count_tiebreaker votes ≠ none := by
  unfold borda_count_tiebreaker
  apply maxByFirst_ne_none
  exact insertionOrder_ne_nil _ h

theorem unionCandidates_eq_nil_iff (votes : List (List α)) :
    unionCandidates votes = [] ↔ votes.flatten = [] := by
  unfold unionCandidates
  exact List.dedup_eq_nil _

theorem noFilterBranch_ok (votes : List (List α))
    (h : ¬ 1 < ((votes.map List.length).dedup).length) :
    noFilterBranch votes = Except.ok (votes, unionCandidates votes) := by
  unfold noFilterBranch
  rw [if_neg h]

theorem noFilterBranch_err (votes : List (List α))
    (h : 1 < ((votes.map List.length).dedup).length) :
    noFilterBranch votes = Except.error "All votes must have same number of candidates." := by
  unfold noFilterBranch
  rw [if_pos h]

theorem noFilterBranch_ok_inv {votes votes1 : List (List α)} {cands : List α}
    (h : noFilterBranch votes = Except.ok (votes1, cands)) :
    votes1 = votes ∧ cands = unionCandidates votes ∧
      ¬ 1 < ((votes.map List.length).dedup).length := by
  unfold noFilterBranch at h
  split_ifs at h with hc
  have h2 := Except.ok.inj h
  exact ⟨(congrArg Prod.fst h2).symm, (congrArg Prod.snd h2).symm, hc⟩

theorem resolveBallots_some_ok_inv {votes votes1 : List (List α)} {s cands : List α}
    (hsne : s ≠ []) (h : resolveBallots votes (some s) = Except.ok (votes1, cands)) :
    votes1 = cleanVotes votes s ∧ cands = s ∧ cleanVotes votes s ≠ [] := by
  rcases s with _ | ⟨a, as⟩
  · exact absurd rfl hsne
  · unfold resolveBallots at h
    simp only [List.isEmpty_cons, Bool.false_eq_true, if_false] at h
    split_ifs at h with hcv
    have h2 := Except.ok.inj h
    refine ⟨(congrArg Prod.fst h2).symm, (congrArg Prod.snd h2).symm, ?_⟩
    intro hnil
    rw [hnil] at hcv
    simp at hcv

theorem calc_err_of_empty (pick : List α → α) (tb : String) (expected : Option (List α)) :
    calculate_condorcet_winner pick ([] : List (List α)) tb expected =
      Except.error "Cannot calculate winner from empty votes list." := rfl

theorem calc_err_of_resolve (pick : List α → α) (tb : String)
    {expected : Option (List α)} {e : String} (v0 : List α) (vs : List (List α))
    (hres : resolveBallots (v0 :: vs) expected = Except.error e) :
    calculate_condorcet_winner pick (v0 :: vs) tb expected = Except.error e := by
  simp [calculate_condorcet_winner, hres]

theorem calc_err_of_first_ballot_empty (pick : List α → α) (tb : String)
    {expected : Option (List α)} {rest : List (List α)} {cands : List α}
    (v0 : List α) (vs : List (List α))
    (hres : resolveBallots (v0 :: vs) expected = Except.ok (([] : List α) :: rest, cands)) :
    calculate_condorcet_winner pick (v0 :: vs) tb expected =
      Except.error "Votes cannot be empty." := by
  simp [calculate_condorcet_winner, hres]

theorem list_sum_map_eq_length {β : Type} (l : List β) (f : β → Nat)
    (h : ∀ x ∈ l, f x = 1) : (l.map f).sum = l.length := by
  induction l with
  | nil => rfl
  | cons x xs ih =>
    simp only [List.map_cons, List.sum_cons, List.length_cons]
    rw [h x (by simp), ih (fun y hy => h y (by simp [hy]))]
    omega

theorem ranked_above_eq_false_of_not_mem {b : α} {v : List α} (h : b ∉ v) (a : α) :
    ranked_above a b v = false := by
  induction v with
  | nil => rfl
  | cons x xs ih =>
    have hb : b ∉ xs := fun hh => h (List.mem_cons_of_mem x hh)
    simp only [ranked_above]
    split_ifs with hx
    · simpa using hb
    · exact ih hb

theorem calc_ok_of_resolved (pick : List α → α) (tb : String)
    {expected : Option (List α)}
    (v0 w0 : List α) (vs ws : List (List α)) (cands : List α)
    (hres : resolveBallots (v0 :: vs) expected = Except.ok (w0 :: ws, cands))
    (hw0 : w0 ≠ []) (hcands : cands ≠ []) :
    isErr (calculate_condorcet_winner pick (v0 :: vs) tb expected) = false := by
  have hw0e : w0.isEmpty = false := by
    rcases w0 with _ | ⟨a, as⟩
    · exact absurd rfl hw0
    · rfl
  rcases cands with _ | ⟨c1, crest⟩
  · exact absurd rfl hcands
  rcases crest with _ | ⟨c2, cs⟩
  · simp [calculate_condorcet_winner, hres, hw0e, isErr]
  rcases hfind : find_condorcet_winner (calculate_pairwise_results (w0 :: ws))
      (c1 :: c2 :: cs) with _ | w
  · have hflat : (w0 :: ws).flatten ≠ [] := by
      simp only [List.flatten_cons]
      intro hcontra
      rcases List.append_eq_nil.mp hcontra with ⟨h1, -⟩
      exact hw0 h1
    by_cases htb : tb = "borda"
    · rcases hb : borda_count_tiebreaker (w0 :: ws) with _ | w
      · exact absurd hb (borda_count_tiebreaker_ne_none _ hflat)
      · simp [calculate_condorcet_winner, hres, hw0e, hfind, htb, hb, isErr]
    · by_cases htb2 : tb = "random"
      · simp [calculate_condorcet_winner, hres, hw0e, hfind, htb, htb2, isErr]
      · simp [calculate_condorcet_winner, hres, hw0e, hfind, htb, htb2, isErr]
  · simp [calculate_condorcet_winner, hres, hw0e, hfind, isErr]

theorem calc_eq_singleton (pick : List α → α) (tb : String)
    {expected : Option (List α)}
    (v0 w0 : List α) (vs ws : List (List α)) (c : α)
    (hres : resolveBallots (v0 :: vs) expected = Except.ok (w0 :: ws, [c]))
    (hw0 : w0 ≠ []) :
    calculate_condorcet_winner pick (v0 :: vs) tb expected = Except.ok (c, "condorcet") := by
  have hw0e : w0.isEmpty = false := by
    rcases w0 with _ | ⟨a, as⟩
    · exact absurd rfl hw0
    · rfl
  simp [calculate_condorcet_winner, hres, hw0e]

/-- C10: an empty expected-candidate set is falsy in Python, so
`calculate_condorcet_winner` with `expected_candidates = ∅` takes exactly the
same path as with no expected set: no filtering, the equal-length validation,
and the union-of-ballots universe. -/
theorem empty_expected_set_behaves_as_none (pick : List α → α) (votes : List (List α))
    (tb : String) :
    calculate_condorcet_winner pick votes tb (some []) =
      calculate_condorcet_winner pick votes tb none := rfl

theorem dedup_length_le_one_of_const {l : List α} {c : α} (h : ∀ a ∈ l, a = c) :
    l.dedup.length ≤ 1 := by
  by_contra hgt
  push_neg at hgt
  rcases hd : l.dedup with _ | ⟨x, _ | ⟨y, ys⟩⟩
  · rw [hd] at hgt
    simp at hgt
  · rw [hd] at hgt
    simp at hgt
  · have hx : x ∈ l.dedup := by
      rw [hd]
      simp
    have hy : y ∈ l.dedup := by
      rw [hd]
      simp
    have hxc := h x (List.mem_dedup.mp hx)
    have hyc := h y (List.mem_dedup.mp hy)
    have hnd := l.nodup_dedup
    rw [hd] at hnd
    rcases List.nodup_cons.mp hnd with ⟨hxn, -⟩
    exact hxn (by rw [hxc, ← hyc]; simp)

/-- C7: if all ballots are duplicate-free rankings over one common candidate
set and all put `X` at position 0, `calculate_condorcet_winner` (with no
expected-candidate set) returns `X` by the Condorcet method. -/
theorem unanimity (pick : List α → α) (votes : List (List α)) (tb : String)
    (X : α) (S : Finset α) (hne : votes ≠ [])
    (hnd : ∀ v ∈ votes, v.Nodup)
    (hS : ∀ v ∈ votes, v.toFinset = S)
    (hX : ∀ v ∈ votes, v.head? = some X) :
    calculate_condorcet_winner pick votes tb none = Except.ok (X, "condorcet") := by
  rcases votes with _ | ⟨v0, vs⟩
  · exact absurd rfl hne
  have hballot : ∀ v ∈ v0 :: vs, ∃ t, v = X :: t := by
    intro v hv
    have hh := hX v hv
    rcases v with _ | ⟨x, t⟩
    · simp at hh
    · simp only [List.head?_cons, Option.some.injEq] at hh
      exact ⟨t, by rw [hh]⟩
  have hlen : ¬ 1 < ((List.map List.length (v0 :: vs)).dedup).length := by
    have hconst : ∀ a ∈ List.map List.length (v0 :: vs), a = S.card := by
      intro a ha
      rcases List.mem_map.mp ha with ⟨v, hv, rfl⟩
      rw [← hS v hv]
      exact (List.toFinset_card_of_nodup (hnd v hv)).symm
    have := dedup_length_le_one_of_const hconst
    omega
  have hres : resolveBallots (v0 :: vs) none =
      Except.ok (v0 :: vs, unionCandidates (v0 :: vs)) :=
    noFilterBranch_ok _ hlen
  obtain ⟨t0, hv0⟩ := hballot v0 (by simp)
  have hv0ne : v0 ≠ [] := by
    rw [hv0]
    simp
  have hXmem : X ∈ unionCandidates (v0 :: vs) :=
    List.mem_dedup.mpr (List.mem_flatten.mpr ⟨v0, by simp, by rw [hv0]; simp⟩)
  have hm : 1 ≤ (v0 :: vs).length := by simp
  have hpXd : ∀ y, y ∈ S → y ≠ X →
      calculate_pairwise_results (v0 :: vs) X y = (v0 :: vs).length := by
    intro y hy hyX
    apply list_sum_map_eq_length
    intro v hv
    obtain ⟨t, hveq⟩ := hballot v hv
    have hvnd := hnd v hv
    have hyv : y ∈ v := List.mem_toFinset.mp (by rw [hS v hv]; exact hy)
    subst hveq
    have hyt : y ∈ t := by
      rcases List.mem_cons.mp hyv with h | h
      · exact absurd h hyX
      · exact h
    rw [votePairs_count_nodup hvnd X y]
    simp [ranked_above, hyt]
  have hpdX : ∀ y, y ≠ X → calculate_pairwise_results (v0 :: vs) y X = 0 := by
    intro y hyX
    apply List.sum_eq_zero
    intro n hn
    rcases List.mem_map.mp hn with ⟨v, hv, rfl⟩
    obtain ⟨t, hveq⟩ := hballot v hv
    have hvnd := hnd v hv
    subst hveq
    have hXt : X ∉ t := (List.nodup_cons.mp hvnd).1
    rw [votePairs_count_nodup hvnd y X]
    have hra : ranked_above y X (X :: t) = false := by
      simp only [ranked_above]
      rw [if_neg (fun h => hyX h.symm)]
      exact ranked_above_eq_false_of_not_mem hXt y
    simp [hra]
  have hmemS : ∀ y ∈ unionCandidates (v0 :: vs), y ∈ S := by
    intro y hy
    rcases List.mem_flatten.mp (List.mem_dedup.mp hy) with ⟨v, hv, hyv⟩
    exact (hS v hv) ▸ List.mem_toFinset.mpr hyv
  have hcond : condorcetCondition (calculate_pairwise_results (v0 :: vs))
      (unionCandidates (v0 :: vs)) X = true := by
    rw [condorcetCondition_iff]
    intro y hy
    by_cases hyX : y = X
    · exact Or.inl hyX.symm
    · right
      rw [hpdX y hyX, hpXd y (hmemS y hy) hyX]
      omega
  have hfindX : find_condorcet_winner (calculate_pairwise_results (v0 :: vs))
      (unionCandidates (v0 :: vs)) = some X :=
    (find_condorcet_eq_some_iff _ _ X).mpr ⟨hXmem, hcond⟩
  rcases hU : unionCandidates (v0 :: vs) with _ | ⟨c1, _ | ⟨c2, cs⟩⟩
  · rw [hU] at hXmem
    exact absurd hXmem (List.not_mem_nil X)
  · rw [hU] at hXmem
    have hXc1 : c1 = X := (List.mem_singleton.mp hXmem).symm
    rw [hU] at hres
    rw [← hXc1]
    exact calc_eq_singleton pick tb v0 v0 vs vs c1 hres hv0ne
  · rw [hU] at hres hfindX
    have hv0e : v0.isEmpty = false := by
      rw [hv0]
      rfl
    simp [calculate_condorcet_winner, hres, hv0e, hfindX]

theorem unanimity_witness :
    calculate_condorcet_winner pickEx [[0, 1], [0, 1]] "schulze" none =
      Except.ok (0, "condorcet") :=
  unanimity pickEx [[0, 1], [0, 1]] "schulze" 0 {0, 1} (by decide) (by decide)
    (by decide) (by decide)

theorem resolveBallots_none (votes : List (List α)) :
    resolveBallots votes none = noFilterBranch votes := rfl

theorem resolveBallots_some_ok (votes : List (List α)) {s : List α}
    (hsE : s.isEmpty = false) (hcv : cleanVotes votes s ≠ []) :
    resolveBallots votes (some s) = Except.ok (cleanVotes votes s, s) := by
  have hcvE : (cleanVotes votes s).isEmpty = false := by
    rcases h : cleanVotes votes s with _ | ⟨a, as⟩
    · exact absurd h hcv
    · rfl
  unfold resolveBallots
  simp only [hsE, Bool.false_eq_true, if_false, hcvE]

theorem resolveBallots_some_err (votes : List (List α)) {s : List α}
    (hsE : s.isEmpty = false) (hcv : cleanVotes votes s = []) :
    resolveBallots votes (some s) =
      Except.error "No valid votes remaining after filtering candidates." := by
  unfold resolveBallots
  simp only [hsE, Bool.false_eq_true, if_false, hcv, List.isEmpty_nil, if_true]

/-- C3: `calculate_condorcet_winner` raises exactly when the raw ballot list
is empty, a (non-empty) expected set filters every ballot away, no expected
set is given and ballots have differing lengths, or the resolved universe is
empty; and when the resolved universe has exactly one member the call instead
returns that member with method `"condorcet"`. -/
theorem calculate_winner_failure_iff (pick : List α → α) (votes : List (List α))
    (tb : String) (expected : Option (List α))
    (hexp : expected = none ∨ ∃ s, expected = some s ∧ s ≠ []) :
    (isErr (calculate_condorcet_winner pick votes tb expected) = true ↔
      votes = [] ∨
        (∃ s, expected = some s ∧ s ≠ [] ∧ cleanVotes votes s = []) ∨
        (expected = none ∧ 1 < ((votes.map List.length).dedup).length) ∨
        resolvedUniverse votes expected = []) ∧
      ∀ (w0 : List α) (ws : List (List α)) (c : α), votes ≠ [] →
        resolveBallots votes expected = Except.ok (w0 :: ws, [c]) →
        calculate_condorcet_winner pick votes tb expected = Except.ok (c, "condorcet") := by
  constructor
  · rcases hexp with rfl | ⟨s, rfl, hsne⟩
    · constructor
      · intro herr
        by_cases hv : votes = []
        · exact Or.inl hv
        by_cases hlen : 1 < ((votes.map List.length).dedup).length
        · exact Or.inr (Or.inr (Or.inl ⟨rfl, hlen⟩))
        by_cases huni : unionCandidates votes = []
        · refine Or.inr (Or.inr (Or.inr ?_))
          simpa [resolvedUniverse] using huni
        · exfalso
          rcases votes with _ | ⟨v0, vs⟩
          · exact hv rfl
          have hres : resolveBallots (v0 :: vs) none =
              Except.ok (v0 :: vs, unionCandidates (v0 :: vs)) :=
            noFilterBranch_ok _ hlen
          have hfl : (v0 :: vs).flatten ≠ [] := fun hcontra =>
            huni ((unionCandidates_eq_nil_iff _).mpr hcontra)
          have hv0 : v0 ≠ [] := first_ballot_ne_nil_of_consistent (by omega) hfl
          have hok := calc_ok_of_resolved pick tb v0 v0 vs vs
            (unionCandidates (v0 :: vs)) hres hv0 huni
          exact absurd (herr.symm.trans hok) (by decide)
      · intro hdis
        rcases hdis with rfl | ⟨s, hs, -, -⟩ | ⟨-, hlen⟩ | huni
        · simp [calc_err_of_empty, isErr]
        · simp at hs
        · rcases votes with _ | ⟨v0, vs⟩
          · simp [calc_err_of_empty, isErr]
          · rw [calc_err_of_resolve pick tb v0 vs
                ((resolveBallots_none _).trans (noFilterBranch_err _ hlen))]
            rfl
        · have huni2 : unionCandidates votes = [] := by
            simpa [resolvedUniverse] using huni
          rcases votes with _ | ⟨v0, vs⟩
          · simp [calc_err_of_empty, isErr]
          · by_cases hlen : 1 < ((List.map List.length (v0 :: vs)).dedup).length
            · rw [calc_err_of_resolve pick tb v0 vs
                  ((resolveBallots_none _).trans (noFilterBranch_err _ hlen))]
              rfl
            · have hres : resolveBallots (v0 :: vs) none =
                  Except.ok (v0 :: vs, unionCandidates (v0 :: vs)) :=
                noFilterBranch_ok _ hlen
              have hfl : (v0 :: vs).flatten = [] :=
                (unionCandidates_eq_nil_iff _).mp huni2
              have hv0 : v0 = [] := by
                have h2 : v0 = [] ∧ ∀ l ∈ vs, l = [] := by
                  simpa [List.flatten_cons] using hfl
                exact h2.1
              subst hv0
              rw [calc_err_of_first_ballot_empty pick tb ([] : List α) vs hres]
              rfl
    · have hsE : s.isEmpty = false := by
        rcases s with _ | ⟨a, as⟩
        · exact absurd rfl hsne
        · rfl
      constructor
      · intro herr
        by_cases hv : votes = []
        · exact Or.inl hv
        by_cases hcv : cleanVotes votes s = []
        · exact Or.inr (Or.inl ⟨s, rfl, hsne, hcv⟩)
        · exfalso
          rcases votes with _ | ⟨v0, vs⟩
          · exact hv rfl
          rcases hclean : cleanVotes (v0 :: vs) s with _ | ⟨w0, ws⟩
          · exact hcv hclean
          have hres0 := resolveBallots_some_ok (v0 :: vs) hsE hcv
          rw [hclean] at hres0
          have hw0 : w0 ≠ [] := cleanVotes_mem_ne_nil (by rw [hclean]; simp)
          have hok := calc_ok_of_resolved pick tb v0 w0 vs ws s hres0 hw0 hsne
          exact absurd (herr.symm.trans hok) (by decide)
      · intro hdis
        rcases hdis with rfl | ⟨s', hs', hsne', hcv'⟩ | ⟨hnone, -⟩ | huni
        · simp [calc_err_of_empty, isErr]
        · have hss : s = s' := by
            injection hs'
          subst hss
          rcases votes with _ | ⟨v0, vs⟩
          · simp [calc_err_of_empty, isErr]
          · rw [calc_err_of_resolve pick tb v0 vs (resolveBallots_some_err _ hsE hcv')]
            rfl
        · simp at hnone
        · exfalso
          apply hsne
          simpa [resolvedUniverse, hsE] using huni
  · intro w0 ws c hvne hres
    rcases votes with _ | ⟨v0, vs⟩
    · exact absurd rfl hvne
    rcases hexp with rfl | ⟨s, rfl, hsne⟩
    · obtain ⟨hv1, hcands, hlen⟩ := noFilterBranch_ok_inv hres
      have hfl : (v0 :: vs).flatten ≠ [] := by
        intro hf
        have h2 : unionCandidates (v0 :: vs) = [] := (unionCandidates_eq_nil_iff _).mpr hf
        rw [← hcands] at h2
        simp at h2
      have hv0 : v0 ≠ [] := first_ballot_ne_nil_of_consistent (by omega) hfl
      have hw0 : w0 = v0 := by
        have := congrArg List.head? hv1
        simpa using this
      exact calc_eq_singleton pick tb v0 w0 vs ws c hres (hw0 ▸ hv0)
    · obtain ⟨hv1, hcands, hclne⟩ := resolveBallots_some_ok_inv hsne hres
      have hw0mem : w0 ∈ cleanVotes (v0 :: vs) s := by
        rw [← hv1]
        simp
      exact calc_eq_singleton pick tb v0 w0 vs ws c hres (cleanVotes_mem_ne_nil hw0mem)

theorem calculate_winner_failure_iff_witness :
    isErr (calculate_condorcet_winner pickEx ([] : List (List Nat)) "schulze" none) = true ∧
      calculate_condorcet_winner pickEx [[0], [0]] "schulze" none =
        Except.ok (0, "condorcet") :=
  ⟨((calculate_winner_failure_iff pickEx [] "schulze" none (Or.inl rfl)).1).mpr (Or.inl rfl),
    ((calculate_winner_failure_iff pickEx [[0], [0]] "schulze" none (Or.inl rfl)).2) [0] [[0]]
      0 (by decide) (by rfl)⟩
